import Mathlib

/-
Verification development for the Phon3x-ART fallback steganography channel
(file phon3x-art.py, class F5Steganography).

Bytes are modelled as lists of natural numbers (each source byte is below
256).  The external AES-256 block primitive from pycryptodome is modelled
as an abstract length-preserving block map on 16-byte blocks together with
its inverse; the CBC chaining, PKCS7 padding, CRC32 checksum, framing,
redundancy coding, bit-plane writes and the byte-alignment search are all
translated concretely from the source.
-/

namespace PhonexArt

/-- Big-endian interpretation of a byte list, as in int.from_bytes with
byteorder big and in struct.unpack of unsigned big-endian fields. -/
def beBytes (l : List Nat) : Nat := l.foldl (fun a b => a * 256 + b) 0

/-- Serialization of a natural number as 4 big-endian bytes, as produced by
struct.pack for one u32 field. -/
def u32be (n : Nat) : List Nat :=
  [n / 2 ^ 24 % 256, n / 2 ^ 16 % 256, n / 2 ^ 8 % 256, n % 256]

/-- One shift-xor round of the reflected CRC-32 bit loop with polynomial
0xEDB88320, as computed by zlib. -/
def crc32Round (c : Nat) : Nat :=
  if c % 2 = 1 then (c / 2) ^^^ 0xEDB88320 else c / 2

/-- Folding one byte into the CRC-32 state: xor the byte in, then run eight
bit rounds. -/
def crc32Byte (c b : Nat) : Nat := crc32Round^[8] (c ^^^ b)

/-- CRC-32 checksum of a byte list as computed by zlib.crc32 masked with
0xffffffff in the source. -/
def crc32 (data : List Nat) : Nat :=
  (data.foldl crc32Byte 0xFFFFFFFF) ^^^ 0xFFFFFFFF

/-- Abstract model of the external AES-256 block primitive used through
pycryptodome: an arbitrary block map on 16-byte blocks that preserves the
block length, together with its inverse.  The derived key is part of the
cipher value. -/
structure BlockCipher where
  enc : List Nat → List Nat
  dec : List Nat → List Nat
  enc_len : ∀ b, b.length = 16 → (enc b).length = 16
  dec_enc : ∀ b, b.length = 16 → dec (enc b) = b

/-- The identity block map, a valid BlockCipher instance used to evaluate
the development on concrete inputs. -/
def idCipher : BlockCipher where
  enc := fun b => b
  dec := fun b => b
  enc_len := fun _ h => h
  dec_enc := fun _ _ => rfl

/-- Bytewise xor of two byte lists, as used by CBC chaining. -/
def xorBytes (a b : List Nat) : List Nat := List.zipWith (· ^^^ ·) a b

/-- PKCS7 padding to the 16-byte AES block size, as in
Crypto.Util.Padding.pad. -/
def pad16 (d : List Nat) : List Nat :=
  d ++ List.replicate (16 - d.length % 16) (16 - d.length % 16)

/-- PKCS7 unpadding; returns none exactly where Crypto.Util.Padding.unpad
raises a ValueError. -/
def unpad16 (d : List Nat) : Option (List Nat) :=
  if d.length = 0 then none
  else if d.length % 16 ≠ 0 then none
  else
    let p := d.getD (d.length - 1) 0
    if 1 ≤ p ∧ p ≤ 16 ∧ p ≤ d.length ∧ d.drop (d.length - p) = List.replicate p p then
      some (d.take (d.length - p))
    else none

/-- Split a byte list into consecutive 16-byte blocks; a final short block
is kept as is (the cipher is only invoked on block-aligned data). -/
def chunks16 (l : List Nat) : List (List Nat) :=
  if h : l = [] then [] else l.take 16 :: chunks16 (l.drop 16)
termination_by l.length
decreasing_by
  simp only [List.length_drop]
  have := List.length_pos.mpr h
  omega

/-- CBC encryption chaining over a block list: each plaintext block is
xored with the previous ciphertext block (initially the IV) and encrypted. -/
def cbcEncBlocks (C : BlockCipher) : List Nat → List (List Nat) → List (List Nat)
  | _, [] => []
  | prev, b :: bs =>
    let c := C.enc (xorBytes prev b)
    c :: cbcEncBlocks C c bs

/-- AES-CBC encryption of a padded plaintext, as performed by the source
method that pads and encrypts. -/
def aesEncryptCBC (C : BlockCipher) (iv pt : List Nat) : List Nat :=
  (cbcEncBlocks C iv (chunks16 pt)).flatten

/-- CBC decryption chaining over a block list. -/
def cbcDecBlocks (C : BlockCipher) : List Nat → List (List Nat) → List (List Nat)
  | _, [] => []
  | prev, b :: bs => xorBytes prev (C.dec b) :: cbcDecBlocks C b bs

/-- AES-CBC decryption followed by PKCS7 unpadding, as in the source
decrypt method; returns none where pycryptodome raises, namely on
ciphertexts that are not a multiple of the 16-byte block and on malformed
padding. -/
def aesDecryptCBC (C : BlockCipher) (iv ct : List Nat) : Option (List Nat) :=
  if ct.length % 16 = 0 then unpad16 ((cbcDecBlocks C iv (chunks16 ct)).flatten)
  else none

/-- Translation of _prepare_data: pack length and CRC-32 as big-endian u32
fields in front of the payload, encrypt with AES-CBC under a fresh IV, and
return the IV followed by the ciphertext. -/
def prepareData (C : BlockCipher) (iv secret : List Nat) : List Nat :=
  iv ++ aesEncryptCBC C iv (pad16 (u32be secret.length ++ u32be (crc32 secret) ++ secret))

/-- Length field of a decrypted frame, the first big-endian u32. -/
def frameLength (pt : List Nat) : Nat := beBytes (pt.take 4)

/-- Checksum field of a decrypted frame, the second big-endian u32. -/
def frameCrc (pt : List Nat) : Nat := beBytes ((pt.drop 4).take 4)

/-- Payload slice of a decrypted frame, bytes 8 up to 8 plus the length
field. -/
def framePayload (pt : List Nat) : List Nat := (pt.drop 8).take (frameLength pt)

/-- Translation of _extract_data: split off the 16-byte IV, decrypt and
unpad, parse the length and checksum fields, check bounds and the CRC-32,
and return the payload; every failure path collapses to none. -/
def extractData (C : BlockCipher) (raw : List Nat) : Option (List Nat) :=
  if raw.length < 16 then none
  else
    match aesDecryptCBC C (raw.take 16) (raw.drop 16) with
    | none => none
    | some pt =>
      if 8 ≤ pt.length then
        if 8 + frameLength pt ≤ pt.length then
          if crc32 (framePayload pt) = frameCrc pt then some (framePayload pt) else none
        else none
      else none

/-- Binary digits of one byte, most significant bit first, as produced by
the 08b format string on a byte value. -/
def byteBits (b : Nat) : List Nat :=
  [b / 128 % 2, b / 64 % 2, b / 32 % 2, b / 16 % 2, b / 8 % 2, b / 4 % 2, b / 2 % 2, b % 2]

/-- Bit sequence of a byte list, most significant bit first per byte. -/
def bytesToBits (l : List Nat) : List Nat := l.flatMap byteBits

/-- Redundancy encoding of embed_fallback: each bit is repeated twice. -/
def eccEncode (bits : List Nat) : List Nat := bits.flatMap (fun b => [b, b])

/-- Redundancy decoding of extract_fallback: consecutive pairs are reduced
with an OR rule, one output bit per full pair, a trailing single bit is
dropped. -/
def eccDecode : List Nat → List Nat
  | b0 :: b1 :: rest => (if 1 ≤ b0 + b1 then 1 else 0) :: eccDecode rest
  | _ => []

/-- Assembling one byte from eight bits with the shift-or loop of
extract_fallback. -/
def packByte (bits : List Nat) : Nat :=
  bits.foldl (fun acc b => (acc <<< 1) ||| b) 0

/-- Grouping a bit list into bytes, eight bits per byte, most significant
bit first, dropping a final incomplete group, as in the alignment loop of
extract_fallback. -/
def bitsToBytes (l : List Nat) : List Nat :=
  if h : 8 ≤ l.length then packByte (l.take 8) :: bitsToBytes (l.drop 8) else []
termination_by l.length
decreasing_by
  simp only [List.length_drop]
  omega

/-- One write step of the embedding loop: read the slot value, compare its
second-least-significant bit with the data bit, and flip that bit with a
xor when they differ. -/
def embedWrite (px : List Nat) (idx bit : Nat) : List Nat :=
  if (((px.getD idx 0) >>> 1) &&& 1) ≠ bit then px.set idx ((px.getD idx 0) ^^^ (1 <<< 1))
  else px

/-- The embedding loop of embed_fallback: walk the permuted slot indices
paired with the bitstream and write each bit. -/
def embedBits (px : List Nat) (pairs : List (Nat × Nat)) : List Nat :=
  pairs.foldl (fun p q => embedWrite p q.1 q.2) px

/-- Translation of embed_fallback on a flat pixel list: prepare the framed
ciphertext, redundancy-encode it to a bitstream, fail when the bitstream
exceeds the slot count, and otherwise write the bits along the permuted
indices.  The permutation list stands for the numpy index sequence; none
models the capacity failure return. -/
def embedFallback (C : BlockCipher) (iv cover secret perm : List Nat) : Option (List Nat) :=
  if cover.length < (eccEncode (bytesToBits (prepareData C iv secret))).length then none
  else some (embedBits cover (perm.zip (eccEncode (bytesToBits (prepareData C iv secret)))))

/-- The byte-alignment search of extract_fallback: try each offset in
order, group the decoded bits into bytes, validate through extractData,
and return the first nonempty payload; the empty payload is falsy in the
source and is skipped. -/
def firstValid (C : BlockCipher) (decoded : List Nat) : List Nat → Option (List Nat)
  | [] => none
  | o :: rest =>
    match extractData C (bitsToBytes (decoded.drop o)) with
    | some d => if d.isEmpty then firstValid C decoded rest else some d
    | none => firstValid C decoded rest

/-- Translation of extract_fallback on a flat pixel list: read the
second-least-significant bit of every slot in permutation order, decode
the repetition code, and run the alignment search over offsets 0 to 7. -/
def extractFallback (C : BlockCipher) (stego perm : List Nat) : Option (List Nat) :=
  firstValid C (eccDecode (perm.map (fun idx => ((stego.getD idx 0) >>> 1) &&& 1)))
    (List.range 8)

/-- Modelled from the spec: the seeded pseudorandom step of the external
numpy generator is not part of the repository; spec section 4.3 only
requires a deterministic seeded shuffle, modelled here with a linear
congruential step. -/
def nextRand (state : Nat) : Nat :=
  (state * 6364136223846793005 + 1442695040888963407) % 2 ^ 64

/-- Modelled from the spec: deterministic seeded shuffle (a Fisher-Yates
style selection shuffle), standing for the external numpy permutation;
spec section 4.3 allows any deterministic shuffle algorithm. -/
def shuffle : Nat → Nat → List Nat → List Nat
  | _, 0, l => l
  | _, _ + 1, [] => []
  | state, fuel + 1, a :: rest =>
    (a :: rest).getD (state % (a :: rest).length) 0 ::
      shuffle (nextRand state) fuel ((a :: rest).eraseIdx (state % (a :: rest).length))

/-- Modelled from the spec: the numpy permutation of 0..n-1 under a given
seed, a pure function of the seed and n. -/
def npPermutation (seed n : Nat) : List Nat := shuffle seed n (List.range n)

/-- The salt string F5StegoSalt as bytes, the fixed public PBKDF2 salt of
the source. -/
def f5SaltBytes : List Nat := [70, 53, 83, 116, 101, 103, 111, 83, 97, 108, 116]

/-- Translation of the key derivation in the constructor; the external
PBKDF2-HMAC-SHA256 primitive is passed in abstractly and is applied to the
password, the fixed salt, 100000 iterations and a 32-byte output length. -/
def deriveKey (pbkdf2 : List Nat → List Nat → Nat → Nat → List Nat)
    (password : List Nat) : List Nat :=
  pbkdf2 password f5SaltBytes 100000 32

/-- Translation of the seed derivation in the constructor: the first 8
bytes of the SHA-256 digest of the password, read as a big-endian integer;
the external SHA-256 primitive is passed in abstractly. -/
def deriveSeed (sha256 : List Nat → List Nat) (password : List Nat) : Nat :=
  beBytes ((sha256 password).take 8)

/-- The seed value actually handed to the numpy generator at both use
sites: the stored 64-bit seed reduced modulo 2^32. -/
def npSeed (sha256 : List Nat → List Nat) (password : List Nat) : Nat :=
  deriveSeed sha256 password % 2 ^ 32

/-- The permuted slot index sequence used by embed_fallback and
extract_fallback: the generator is seeded with the reduced seed and asked
for a permutation of the slot count. -/
def fallbackIndices (sha256 : List Nat → List Nat) (password : List Nat) (n : Nat) : List Nat :=
  npPermutation (deriveSeed sha256 password % 2 ^ 32) n

/-- Top level of embed_fallback: the image load may fail (modelling any
exception raised inside the body, caught by the enclosing handler), and
every outcome is reported as a boolean-message pair. -/
def embedFallbackTop (C : BlockCipher) (iv : List Nat) (img : Option (List Nat))
    (secret perm : List Nat) : Bool × String :=
  match img with
  | none => (false, "Fallback embedding failed")
  | some cover =>
    match embedFallback C iv cover secret perm with
    | none => (false, "Insufficient capacity")
    | some _ => (true, "Fallback embedding successful")

/-- Top level of extract_fallback: the image load may fail (modelling any
exception raised inside the body, caught by the enclosing handler), and
every outcome is reported as an optional-payload-message pair. -/
def extractFallbackTop (C : BlockCipher) (img : Option (List Nat))
    (perm : List Nat) : Option (List Nat) × String :=
  match img with
  | none => (none, "Fallback extraction failed")
  | some stego =>
    match extractFallback C stego perm with
    | none => (none, "No valid data found in fallback extraction")
    | some d => (some d, "Fallback extraction successful")

/-- The byte string hello from the concrete scenario of the spec. -/
def helloBytes : List Nat := [104, 101, 108, 108, 111]

lemma xorBytes_length (a b : List Nat) : (xorBytes a b).length = min a.length b.length := by
  simp [xorBytes]

lemma xorBytes_cancel : ∀ a b : List Nat, a.length = b.length →
    xorBytes a (xorBytes a b) = b
  | [], [], _ => rfl
  | x :: a, y :: b, h => by
    simp only [List.length_cons] at h
    have ih := xorBytes_cancel a b (by omega)
    simp only [xorBytes, List.zipWith_cons_cons] at ih ⊢
    rw [Nat.xor_cancel_left, ih]

lemma chunks16_nil : chunks16 [] = [] := by
  rw [chunks16]
  simp

lemma chunks16_ne {l : List Nat} (h : l ≠ []) :
    chunks16 l = l.take 16 :: chunks16 (l.drop 16) := by
  rw [chunks16]
  simp [h]

lemma chunks16_flatten : ∀ (n : Nat) (l : List Nat), l.length ≤ n →
    (chunks16 l).flatten = l
  | 0, l, hl => by
    have : l = [] := List.eq_nil_of_length_eq_zero (by omega)
    subst this
    simp [chunks16_nil]
  | n + 1, l, hl => by
    by_cases h : l = []
    · simp [h, chunks16_nil]
    · rw [chunks16_ne h]
      have hpos := List.length_pos.mpr h
      rw [List.flatten_cons, chunks16_flatten n (l.drop 16) (by simp; omega)]
      exact List.take_append_drop 16 l

lemma chunks16_blocks : ∀ (n : Nat) (l : List Nat), l.length ≤ n → l.length % 16 = 0 →
    ∀ b ∈ chunks16 l, b.length = 16
  | 0, l, hl, _, b, hb => by
    have : l = [] := List.eq_nil_of_length_eq_zero (by omega)
    subst this
    simp [chunks16_nil] at hb
  | n + 1, l, hl, hm, b, hb => by
    by_cases h : l = []
    · simp [h, chunks16_nil] at hb
    · rw [chunks16_ne h] at hb
      have hpos := List.length_pos.mpr h
      have h16 : 16 ≤ l.length := by omega
      rcases List.mem_cons.mp hb with hb | hb
      · subst hb
        simp [List.length_take]
        omega
      · exact chunks16_blocks n (l.drop 16) (by simp; omega) (by simp; omega) b hb

lemma chunks16_count : ∀ (n : Nat) (l : List Nat), l.length ≤ n →
    (chunks16 l).length = (l.length + 15) / 16
  | 0, l, hl => by
    have : l = [] := List.eq_nil_of_length_eq_zero (by omega)
    subst this
    simp [chunks16_nil]
  | n + 1, l, hl => by
    by_cases h : l = []
    · simp [h, chunks16_nil]
    · rw [chunks16_ne h]
      have hpos := List.length_pos.mpr h
      rw [List.length_cons, chunks16_count n (l.drop 16) (by simp; omega)]
      simp only [List.length_drop]
      omega

lemma chunks16_of_blocks : ∀ bs : List (List Nat), (∀ b ∈ bs, b.length = 16) →
    chunks16 bs.flatten = bs
  | [], _ => by simp [chunks16_nil]
  | b :: bs, h => by
    have hb : b.length = 16 := h b (by simp)
    have hne : (b :: bs).flatten ≠ [] := by
      simp only [List.flatten_cons]
      intro hc
      have := congrArg List.length hc
      simp [hb] at this
    rw [chunks16_ne hne]
    simp only [List.flatten_cons]
    rw [List.take_append_of_le_length (by omega), List.drop_append_of_le_length (by omega)]
    rw [show b.take 16 = b from by simp [hb], show b.drop 16 = [] from by simp [hb]]
    simp only [List.nil_append]
    rw [chunks16_of_blocks bs (fun x hx => h x (by simp [hx]))]

lemma cbcEncBlocks_blocks (C : BlockCipher) :
    ∀ (bs : List (List Nat)) (prev : List Nat), prev.length = 16 →
      (∀ b ∈ bs, b.length = 16) →
      (∀ c ∈ cbcEncBlocks C prev bs, c.length = 16) ∧
        (cbcEncBlocks C prev bs).length = bs.length
  | [], prev, _, _ => by simp [cbcEncBlocks]
  | b :: bs, prev, hp, hbs => by
    have hb : b.length = 16 := hbs b (by simp)
    have hx : (xorBytes prev b).length = 16 := by
      rw [xorBytes_length, hp, hb]; omega
    have hc : (C.enc (xorBytes prev b)).length = 16 := C.enc_len _ hx
    have ih := cbcEncBlocks_blocks C bs (C.enc (xorBytes prev b)) hc
      (fun x hx => hbs x (by simp [hx]))
    constructor
    · intro c hc2
      simp only [cbcEncBlocks, List.mem_cons] at hc2
      rcases hc2 with hc2 | hc2
      · rw [hc2]; exact hc
      · exact ih.1 c hc2
    · simp only [cbcEncBlocks, List.length_cons, ih.2]

lemma cbcDec_cbcEnc (C : BlockCipher) :
    ∀ (bs : List (List Nat)) (prev : List Nat), prev.length = 16 →
      (∀ b ∈ bs, b.length = 16) →
      cbcDecBlocks C prev (cbcEncBlocks C prev bs) = bs
  | [], prev, _, _ => by simp [cbcEncBlocks, cbcDecBlocks]
  | b :: bs, prev, hp, hbs => by
    have hb : b.length = 16 := hbs b (by simp)
    have hx : (xorBytes prev b).length = 16 := by
      rw [xorBytes_length, hp, hb]; omega
    have hc : (C.enc (xorBytes prev b)).length = 16 := C.enc_len _ hx
    simp only [cbcEncBlocks, cbcDecBlocks, List.cons.injEq]
    constructor
    · rw [C.dec_enc _ hx]
      exact xorBytes_cancel prev b (by omega)
    · exact cbcDec_cbcEnc C bs _ hc (fun x hx => hbs x (by simp [hx]))

lemma flatten_blocks_length : ∀ bs : List (List Nat), (∀ b ∈ bs, b.length = 16) →
    bs.flatten.length = 16 * bs.length
  | [], _ => by simp
  | b :: bs, h => by
    simp only [List.flatten_cons, List.length_append, h b (by simp),
      flatten_blocks_length bs (fun x hx => h x (by simp [hx])), List.length_cons]
    ring

lemma aesEncryptCBC_length (C : BlockCipher) (iv pt : List Nat)
    (hiv : iv.length = 16) (hm : pt.length % 16 = 0) :
    (aesEncryptCBC C iv pt).length = pt.length := by
  unfold aesEncryptCBC
  have hblocks := chunks16_blocks pt.length pt le_rfl hm
  have henc := cbcEncBlocks_blocks C (chunks16 pt) iv hiv hblocks
  rw [flatten_blocks_length _ henc.1, henc.2, chunks16_count pt.length pt le_rfl]
  omega

lemma pad16_length (d : List Nat) :
    (pad16 d).length = d.length + (16 - d.length % 16) := by
  simp [pad16]

lemma pad16_mod (d : List Nat) : (pad16 d).length % 16 = 0 := by
  rw [pad16_length]
  have := Nat.mod_lt d.length (show 0 < 16 by decide)
  omega

lemma unpad16_pad16 (d : List Nat) : unpad16 (pad16 d) = some d := by
  set p := 16 - d.length % 16 with hp
  have hplt : d.length % 16 < 16 := Nat.mod_lt _ (by decide)
  have hp1 : 1 ≤ p := by omega
  have hp16 : p ≤ 16 := by omega
  have hlen : (pad16 d).length = d.length + p := pad16_length d
  have hmod : (pad16 d).length % 16 = 0 := pad16_mod d
  have hlast : (pad16 d).getD ((pad16 d).length - 1) 0 = p := by
    rw [hlen, pad16, ← hp]
    rw [List.getD_eq_getElem?_getD, List.getElem?_append_right (by omega)]
    rw [List.getElem?_replicate]
    simp only [show d.length + p - 1 - d.length < p from by omega, if_pos]
    rfl
  have hdrop : (pad16 d).drop ((pad16 d).length - p) = List.replicate p p := by
    rw [hlen, pad16, ← hp, show d.length + p - p = d.length from by omega]
    rw [List.drop_append_of_le_length le_rfl]
    simp
  have htake : (pad16 d).take ((pad16 d).length - p) = d := by
    rw [hlen, pad16, ← hp, show d.length + p - p = d.length from by omega]
    rw [List.take_append_of_le_length le_rfl]
    simp
  unfold unpad16
  rw [if_neg (by omega), if_neg (by omega), hlast]
  rw [if_pos ⟨hp1, hp16, by omega, hdrop⟩, htake]

lemma aes_roundtrip (C : BlockCipher) (iv d : List Nat) (hiv : iv.length = 16) :
    aesDecryptCBC C iv (aesEncryptCBC C iv (pad16 d)) = some d := by
  have hm : (pad16 d).length % 16 = 0 := pad16_mod d
  have hblocks := chunks16_blocks (pad16 d).length (pad16 d) le_rfl hm
  have henc := cbcEncBlocks_blocks C (chunks16 (pad16 d)) iv hiv hblocks
  unfold aesDecryptCBC
  rw [if_pos (by rw [aesEncryptCBC_length C iv _ hiv hm]; exact hm)]
  unfold aesEncryptCBC
  rw [chunks16_of_blocks _ henc.1, cbcDec_cbcEnc C _ iv hiv hblocks]
  rw [chunks16_flatten (pad16 d).length (pad16 d) le_rfl]
  exact unpad16_pad16 d

lemma bytesToBits_length (l : List Nat) : (bytesToBits l).length = 8 * l.length := by
  induction l with
  | nil => simp [bytesToBits]
  | cons b l ih =>
    simp only [bytesToBits, List.flatMap_cons, List.length_append, List.length_cons] at ih ⊢
    simp [byteBits, ih]
    ring

lemma bytesToBits_le_one (l : List Nat) : ∀ b ∈ bytesToBits l, b ≤ 1 := by
  intro b hb
  simp only [bytesToBits, List.mem_flatMap] at hb
  obtain ⟨x, _, hx⟩ := hb
  simp only [byteBits, List.mem_cons, List.not_mem_nil, or_false] at hx
  rcases hx with h | h | h | h | h | h | h | h <;> subst h <;>
    exact Nat.le_of_lt_succ (Nat.mod_lt _ (by decide))

lemma eccEncode_length (bits : List Nat) : (eccEncode bits).length = 2 * bits.length := by
  induction bits with
  | nil => simp [eccEncode]
  | cons b bits ih =>
    simp only [eccEncode, List.flatMap_cons, List.length_append, List.length_cons] at ih ⊢
    simp [ih]
    ring

lemma eccEncode_le_one (bits : List Nat) (h : ∀ b ∈ bits, b ≤ 1) :
    ∀ b ∈ eccEncode bits, b ≤ 1 := by
  intro b hb
  simp only [eccEncode, List.mem_flatMap, List.mem_cons, List.not_mem_nil, or_false] at hb
  obtain ⟨x, hx, hbx⟩ := hb
  rcases hbx with hbx | hbx <;> exact hbx ▸ h x hx

lemma eccDecode_eccEncode (bits : List Nat) (h : ∀ b ∈ bits, b ≤ 1) :
    eccDecode (eccEncode bits) = bits := by
  induction bits with
  | nil => rfl
  | cons b bits ih =>
    have hb : b ≤ 1 := h b (by simp)
    simp only [eccEncode, List.flatMap_cons, List.cons_append, List.nil_append]
    show eccDecode (b :: b :: eccEncode bits) = b :: bits
    simp only [eccDecode]
    rw [ih (fun x hx => h x (by simp [hx]))]
    have : b = 0 ∨ b = 1 := by omega
    rcases this with hb0 | hb0 <;> subst hb0 <;> simp

lemma eccDecode_length : ∀ l : List Nat, (eccDecode l).length = l.length / 2
  | [] => by simp [eccDecode]
  | [_] => by simp [eccDecode]
  | _ :: _ :: l => by
    simp only [eccDecode, List.length_cons, eccDecode_length l]
    omega

lemma bitsToBytes_of_lt {l : List Nat} (h : l.length < 8) : bitsToBytes l = [] := by
  rw [bitsToBytes]
  simp
  omega

lemma bitsToBytes_of_ge {l : List Nat} (h : 8 ≤ l.length) :
    bitsToBytes l = packByte (l.take 8) :: bitsToBytes (l.drop 8) := by
  rw [bitsToBytes]
  simp [h]

lemma bitsToBytes_length : ∀ (n : Nat) (l : List Nat), l.length ≤ n →
    (bitsToBytes l).length = l.length / 8
  | 0, l, hl => by
    rw [bitsToBytes_of_lt (by omega)]
    simp
    omega
  | n + 1, l, hl => by
    by_cases h : 8 ≤ l.length
    · rw [bitsToBytes_of_ge h, List.length_cons,
        bitsToBytes_length n (l.drop 8) (by simp; omega)]
      simp only [List.length_drop]
      omega
    · rw [bitsToBytes_of_lt (by omega)]
      simp
      omega

/-- The value written into a slot by one step of the embedding loop. -/
def writeVal (v bit : Nat) : Nat :=
  if ((v >>> 1) &&& 1) ≠ bit then v ^^^ (1 <<< 1) else v

set_option maxRecDepth 16384 in
lemma writeVal_spec : ∀ v < 256, ∀ b < 2,
    writeVal v b / 4 = v / 4 ∧ writeVal v b % 2 = v % 2 ∧
      ((writeVal v b) >>> 1) &&& 1 = b := by decide

lemma embedWrite_length (px : List Nat) (idx bit : Nat) :
    (embedWrite px idx bit).length = px.length := by
  unfold embedWrite
  split <;> simp

lemma embedBits_length : ∀ (ps : List (Nat × Nat)) (px : List Nat),
    (embedBits px ps).length = px.length
  | [], _ => rfl
  | q :: ps, px => by
    simp only [embedBits, List.foldl_cons]
    rw [show (List.foldl (fun p q => embedWrite p q.1 q.2) (embedWrite px q.1 q.2) ps) =
      embedBits (embedWrite px q.1 q.2) ps from rfl]
    rw [embedBits_length ps, embedWrite_length]

lemma embedWrite_getD_ne (px : List Nat) (idx bit s : Nat) (h : s ≠ idx) :
    (embedWrite px idx bit).getD s 0 = px.getD s 0 := by
  unfold embedWrite
  split
  · simp [List.getD_eq_getElem?_getD, List.getElem?_set_ne (Ne.symm h)]
  · rfl

lemma embedWrite_getD_self (px : List Nat) (idx bit : Nat) (h : idx < px.length) :
    (embedWrite px idx bit).getD idx 0 = writeVal (px.getD idx 0) bit := by
  unfold embedWrite writeVal
  split
  · simp [List.getD_eq_getElem?_getD, List.getElem?_set_eq_of_lt _ h]
  · rfl

lemma embedBits_getD_notin : ∀ (ps : List (Nat × Nat)) (px : List Nat) (s : Nat),
    s ∉ ps.map Prod.fst → (embedBits px ps).getD s 0 = px.getD s 0
  | [], _, _, _ => rfl
  | q :: ps, px, s, h => by
    simp only [List.map_cons, List.mem_cons, not_or] at h
    simp only [embedBits, List.foldl_cons]
    rw [show (List.foldl (fun p q => embedWrite p q.1 q.2) (embedWrite px q.1 q.2) ps) =
      embedBits (embedWrite px q.1 q.2) ps from rfl]
    rw [embedBits_getD_notin ps _ s h.2, embedWrite_getD_ne _ _ _ _ h.1]

lemma embedBits_getD_mem : ∀ (ps : List (Nat × Nat)) (px : List Nat) (i b : Nat),
    (ps.map Prod.fst).Nodup → (i, b) ∈ ps → i < px.length →
    (embedBits px ps).getD i 0 = writeVal (px.getD i 0) b
  | [], _, _, _, _, hmem, _ => absurd hmem (List.not_mem_nil _)
  | q :: ps, px, i, b, hnd, hmem, hlt => by
    simp only [List.map_cons, List.nodup_cons] at hnd
    simp only [embedBits, List.foldl_cons]
    rw [show (List.foldl (fun p q => embedWrite p q.1 q.2) (embedWrite px q.1 q.2) ps) =
      embedBits (embedWrite px q.1 q.2) ps from rfl]
    rcases List.mem_cons.mp hmem with hq | hmem2
    · subst hq
      rw [embedBits_getD_notin ps _ i hnd.1]
      exact embedWrite_getD_self px i b hlt
    · have hifst : i ∈ ps.map Prod.fst :=
        List.mem_map.mpr ⟨(i, b), hmem2, rfl⟩
      have hne : i ≠ q.1 := by
        intro hc
        exact hnd.1 (hc ▸ hifst)
      rw [embedBits_getD_mem ps _ i b hnd.2 hmem2 (by rw [embedWrite_length]; exact hlt),
        embedWrite_getD_ne _ _ _ _ hne]

lemma map_fst_zip_take : ∀ (l1 l2 : List Nat),
    (l1.zip l2).map Prod.fst = l1.take l2.length
  | [], _ => by simp
  | _ :: _, [] => by simp
  | a :: l1, b :: l2 => by
    simp only [List.zip_cons_cons, List.map_cons, List.length_cons, List.take_succ_cons]
    rw [map_fst_zip_take l1 l2]

lemma extractData_none_of_misaligned (C : BlockCipher) (raw : List Nat)
    (h16 : 16 ≤ raw.length) (hm : (raw.length - 16) % 16 ≠ 0) :
    extractData C raw = none := by
  unfold extractData
  rw [if_neg (by omega)]
  have hdec : aesDecryptCBC C (raw.take 16) (raw.drop 16) = none := by
    unfold aesDecryptCBC
    rw [if_neg (by simpa using hm)]
  rw [hdec]

lemma cons_eraseIdx_perm (l : List Nat) (j : Nat) (h : j < l.length) :
    (l.getD j 0 :: l.eraseIdx j).Perm l := by
  rw [List.getD_eq_getElem l 0 h, List.eraseIdx_eq_take_drop_succ]
  have hmid : (l[j] :: (l.take j ++ l.drop (j + 1))).Perm
      (l.take j ++ l[j] :: l.drop (j + 1)) := List.perm_middle.symm
  refine hmid.trans ?_
  rw [← List.drop_eq_getElem_cons h, List.take_append_drop]

lemma shuffle_perm : ∀ (fuel state : Nat) (l : List Nat), (shuffle state fuel l).Perm l
  | 0, _, l => List.Perm.refl l
  | _ + 1, _, [] => by simp [shuffle]
  | fuel + 1, state, a :: rest => by
    simp only [shuffle]
    have hj : state % (a :: rest).length < (a :: rest).length :=
      Nat.mod_lt _ (by simp)
    exact ((shuffle_perm fuel (nextRand state) _).cons _).trans
      (cons_eraseIdx_perm (a :: rest) _ hj)

lemma npPermutation_perm (seed n : Nat) : (npPermutation seed n).Perm (List.range n) :=
  shuffle_perm n seed (List.range n)

lemma firstValid_none (C : BlockCipher) (decoded : List Nat) :
    ∀ os : List Nat, (∀ o ∈ os, extractData C (bitsToBytes (decoded.drop o)) = none) →
      firstValid C decoded os = none
  | [], _ => rfl
  | o :: os, h => by
    simp only [firstValid, h o (by simp)]
    exact firstValid_none C decoded os (fun x hx => h x (by simp [hx]))

/-- C6: redundancy-encoding any byte string, most significant bit first per
byte, with the 2x repetition code yields a bitstream of length
8 * len * 2, and the OR-rule pair decoding of that uncorrupted bitstream
recovers the original bit sequence exactly. -/
theorem c6_redundancy_roundtrip (B : List Nat) :
    (eccEncode (bytesToBits B)).length = 8 * B.length * 2 ∧
      eccDecode (eccEncode (bytesToBits B)) = bytesToBits B := by
  constructor
  · rw [eccEncode_length, bytesToBits_length]
    ring
  · exact eccDecode_eccEncode _ (bytesToBits_le_one B)

/-- C5: embedding fails with the capacity error, producing no output image
and leaving the carrier untouched, exactly when the redundancy-coded
bitstream length 8 * len(iv plus ciphertext) * 2 exceeds the slot count of
the carrier. -/
theorem c5_capacity_guard (C : BlockCipher) (iv cover secret perm : List Nat) :
    embedFallback C iv cover secret perm = none ↔
      cover.length < 8 * (prepareData C iv secret).length * 2 := by
  unfold embedFallback
  rw [eccEncode_length, bytesToBits_length]
  constructor
  · intro h
    by_contra hc
    rw [if_neg (by omega)] at h
    exact Option.noConfusion h
  · intro h
    rw [if_pos (by omega)]

/-- C8: the permutation generator is a pure function of seed and slot
count: it returns a bijection of the interval 0..n-1 (as a duplicate-free
list of length n covering exactly the indices below n), and two calls with
identical arguments return the identical ordered sequence, which is why
the embed path and the extract path select the same slots in the same
order. -/
theorem c8_permutation_generator (seed n : Nat) :
    (npPermutation seed n).length = n ∧ (npPermutation seed n).Nodup ∧
      (∀ x, x ∈ npPermutation seed n ↔ x < n) ∧
      (∀ s2 n2, s2 = seed → n2 = n → npPermutation s2 n2 = npPermutation seed n) := by
  have hp := npPermutation_perm seed n
  refine ⟨by simpa using hp.length_eq, hp.nodup_iff.mpr (List.nodup_range n), ?_, ?_⟩
  · intro x
    rw [hp.mem_iff, List.mem_range]
  · intro s2 n2 hs hn
    rw [hs, hn]

/-- C9: key derivation is total and deterministic for every password
including the empty one; the encryption key is PBKDF2-HMAC-SHA256 of the
password with the fixed public salt F5StegoSalt, 100000 iterations and a
32-byte output, and the permutation seed handed to the generator is the
big-endian value of the first 8 bytes of SHA-256 of the password reduced
modulo 2^32 before use. -/
theorem c9_key_derivation (sha256 : List Nat → List Nat)
    (pbkdf2 : List Nat → List Nat → Nat → Nat → List Nat) (password : List Nat) :
    deriveKey pbkdf2 password = pbkdf2 password f5SaltBytes 100000 32 ∧
      npSeed sha256 password = beBytes ((sha256 password).take 8) % 2 ^ 32 ∧
      npSeed sha256 password < 2 ^ 32 ∧
      (∀ n, fallbackIndices sha256 password n =
        npPermutation (npSeed sha256 password) n) := by
  refine ⟨rfl, rfl, Nat.mod_lt _ (by decide), fun n => rfl⟩

set_option maxRecDepth 32768 in
/-- C3: for every payload, the prepared envelope is the 16-byte IV
followed by the AES-CBC ciphertext of the PKCS7-padded plaintext
consisting of the payload length as a big-endian u32, the CRC-32 of the
payload as a big-endian u32, and the payload; decrypting and unpadding the
ciphertext part returns exactly that plaintext, and for the payload hello
the unpadded plaintext is the 4 bytes 0 0 0 5, then the CRC-32 bytes
54 16 166 134, then hello. -/
theorem c3_envelope_format (C : BlockCipher) (iv secret : List Nat) (hiv : iv.length = 16) :
    (prepareData C iv secret).take 16 = iv ∧
      (prepareData C iv secret).drop 16 =
        aesEncryptCBC C iv (pad16 (u32be secret.length ++ u32be (crc32 secret) ++ secret)) ∧
      aesDecryptCBC C iv ((prepareData C iv secret).drop 16) =
        some (u32be secret.length ++ u32be (crc32 secret) ++ secret) ∧
      u32be helloBytes.length ++ u32be (crc32 helloBytes) ++ helloBytes =
        [0, 0, 0, 5, 54, 16, 166, 134, 104, 101, 108, 108, 111] := by
  have htake : (prepareData C iv secret).take 16 = iv := by
    unfold prepareData
    exact List.take_left' hiv
  have hdrop : (prepareData C iv secret).drop 16 =
      aesEncryptCBC C iv (pad16 (u32be secret.length ++ u32be (crc32 secret) ++ secret)) := by
    unfold prepareData
    exact List.drop_left' hiv
  refine ⟨htake, hdrop, ?_, by decide⟩
  rw [hdrop]
  exact aes_roundtrip C iv _ hiv

theorem c3_envelope_format_witness :
    aesDecryptCBC idCipher (List.replicate 16 0)
        ((prepareData idCipher (List.replicate 16 0) helloBytes).drop 16) =
      some (u32be helloBytes.length ++ u32be (crc32 helloBytes) ++ helloBytes) :=
  (c3_envelope_format idCipher (List.replicate 16 0) helloBytes (by simp)).2.2.1

/-- C4: decoding returns none exactly when the raw stream is shorter than
16 bytes, or AES-CBC decryption and unpadding of the part after the IV
fails, or fewer than 8 plaintext bytes remain, or the plaintext is shorter
than 8 plus the parsed length field, or the CRC-32 of the payload slice
differs from the parsed checksum; otherwise it returns the payload slice
bytes 8 to 8 plus length, and every failure collapses to the single value
none. -/
theorem c4_decode_characterization (C : BlockCipher) (raw : List Nat) :
    (extractData C raw = none ↔
      raw.length < 16 ∨ aesDecryptCBC C (raw.take 16) (raw.drop 16) = none ∨
        ∃ pt, aesDecryptCBC C (raw.take 16) (raw.drop 16) = some pt ∧
          (pt.length < 8 ∨ pt.length < 8 + frameLength pt ∨
            crc32 (framePayload pt) ≠ frameCrc pt)) ∧
      (∀ pt, aesDecryptCBC C (raw.take 16) (raw.drop 16) = some pt →
        16 ≤ raw.length → 8 ≤ pt.length → 8 + frameLength pt ≤ pt.length →
        crc32 (framePayload pt) = frameCrc pt →
        extractData C raw = some (framePayload pt)) := by
  constructor
  · by_cases h16 : raw.length < 16
    · simp [extractData, h16]
    · cases hdec : aesDecryptCBC C (raw.take 16) (raw.drop 16) with
      | none => simp [extractData, h16, hdec]
      | some pt =>
        simp only [extractData, if_neg h16, hdec]
        by_cases h8 : 8 ≤ pt.length
        · by_cases hfl : 8 + frameLength pt ≤ pt.length
          · by_cases hcrc : crc32 (framePayload pt) = frameCrc pt
            · simp [h8, hfl, hcrc, h16]
            · simp [h8, hfl, hcrc, h16]
          · simp [h8, hfl, h16]
            omega
        · simp [h8, h16]
          omega
  · intro pt hdec h16 h8 hfl hcrc
    simp [extractData, hdec, h8, hfl, hcrc, Nat.not_lt.mpr h16]

theorem c4_decode_characterization_witness :
    extractData idCipher [] = none :=
  (c4_decode_characterization idCipher []).1.mpr (Or.inl (by simp))

/-- C10: the fallback interface is total: embedding always returns a
boolean-message pair and extraction always returns an optional-payload-
message pair; an internal failure, modelled by the image input being
unavailable, is reported as a failure result and only a genuine success of
the underlying operation produces a success result. -/
theorem c10_fallback_totality (C : BlockCipher) (iv : List Nat) (img : Option (List Nat))
    (secret perm : List Nat) :
    ((embedFallbackTop C iv img secret perm).1 = true ↔
      ∃ cover out, img = some cover ∧ embedFallback C iv cover secret perm = some out) ∧
      (∀ d, (extractFallbackTop C img perm).1 = some d ↔
        ∃ stego, img = some stego ∧ extractFallback C stego perm = some d) ∧
      (img = none → (embedFallbackTop C iv img secret perm).1 = false ∧
        (extractFallbackTop C img perm).1 = none) := by
  refine ⟨?_, ?_, ?_⟩
  · cases img with
    | none => simp [embedFallbackTop]
    | some cover =>
      cases hemb : embedFallback C iv cover secret perm with
      | none => simp [embedFallbackTop, hemb]
      | some out => simp [embedFallbackTop, hemb]
  · intro d
    cases img with
    | none => simp [extractFallbackTop]
    | some stego =>
      cases hext : extractFallback C stego perm with
      | none => simp [extractFallbackTop, hext]
      | some d2 => simp [extractFallbackTop, hext, eq_comm]
  · intro h
    subst h
    exact ⟨rfl, rfl⟩

theorem c10_fallback_totality_witness :
    (embedFallbackTop idCipher [] none [] []).1 = false ∧
      (extractFallbackTop idCipher none []).1 = none :=
  (c10_fallback_totality idCipher [] none [] []).2.2 rfl

/-- C7: when embedding succeeds, each bit of the bitstream is written into
the second-least-significant bit of the slot at the corresponding permuted
index, leaving the other bits of that slot value unchanged, and every slot
at a permuted index beyond the bitstream length keeps its cover value. -/
theorem c7_write_effect (C : BlockCipher) (iv cover secret perm out : List Nat)
    (hnd : perm.Nodup) (hmem : ∀ i ∈ perm, i < cover.length)
    (hpx : ∀ v ∈ cover, v < 256)
    (hlen : (eccEncode (bytesToBits (prepareData C iv secret))).length ≤ perm.length)
    (hout : embedFallback C iv cover secret perm = some out) :
    (∀ j, j < (eccEncode (bytesToBits (prepareData C iv secret))).length →
      out.getD (perm.getD j 0) 0 / 4 = cover.getD (perm.getD j 0) 0 / 4 ∧
        out.getD (perm.getD j 0) 0 % 2 = cover.getD (perm.getD j 0) 0 % 2 ∧
        ((out.getD (perm.getD j 0) 0) >>> 1) &&& 1 =
          (eccEncode (bytesToBits (prepareData C iv secret))).getD j 0) ∧
      ∀ j, (eccEncode (bytesToBits (prepareData C iv secret))).length ≤ j →
        j < perm.length → out.getD (perm.getD j 0) 0 = cover.getD (perm.getD j 0) 0 := by
  unfold embedFallback at hout
  set bits := eccEncode (bytesToBits (prepareData C iv secret)) with hbits
  have hb01 : ∀ b ∈ bits, b ≤ 1 := eccEncode_le_one _ (bytesToBits_le_one _)
  by_cases hcap : cover.length < bits.length
  · rw [if_pos hcap] at hout
    exact absurd hout (by simp)
  · rw [if_neg hcap] at hout
    have hout2 : out = embedBits cover (perm.zip bits) := (Option.some.inj hout).symm
    subst hout2
    have hziplen : (perm.zip bits).length = bits.length := by
      rw [List.length_zip]
      omega
    have hfst : (perm.zip bits).map Prod.fst = perm.take bits.length :=
      map_fst_zip_take perm bits
    have hndfst : ((perm.zip bits).map Prod.fst).Nodup := by
      rw [hfst]
      exact hnd.sublist (List.take_sublist _ _)
    constructor
    · intro j hj
      have hjp : j < perm.length := lt_of_lt_of_le hj hlen
      have hjz : j < (perm.zip bits).length := by omega
      have hpair : (perm.getD j 0, bits.getD j 0) ∈ perm.zip bits := by
        have h1 : (perm.zip bits)[j] = (perm[j], bits[j]) := List.getElem_zip
        have h2 : (perm.zip bits)[j] ∈ perm.zip bits := List.getElem_mem hjz
        rw [h1] at h2
        rw [List.getD_eq_getElem perm 0 hjp, List.getD_eq_getElem bits 0 hj]
        exact h2
      have hslot : perm.getD j 0 < cover.length := by
        apply hmem
        rw [List.getD_eq_getElem perm 0 hjp]
        exact List.getElem_mem hjp
      have hval := embedBits_getD_mem (perm.zip bits) cover (perm.getD j 0)
        (bits.getD j 0) hndfst hpair hslot
      have hv256 : cover.getD (perm.getD j 0) 0 < 256 := by
        rw [List.getD_eq_getElem cover 0 hslot]
        exact hpx _ (List.getElem_mem hslot)
      have hb2 : bits.getD j 0 < 2 := by
        have : bits.getD j 0 ≤ 1 := by
          rw [List.getD_eq_getElem bits 0 hj]
          exact hb01 _ (List.getElem_mem hj)
        omega
      rw [hval]
      exact writeVal_spec _ hv256 _ hb2
    · intro j hjL hjp
      have hsplit : (perm.take bits.length ++ perm.drop bits.length).Nodup := by
        rw [List.take_append_drop]
        exact hnd
      have hdisj := (List.nodup_append.mp hsplit).2.2
      have hjd : j - bits.length < (perm.drop bits.length).length := by
        simp only [List.length_drop]
        omega
      have hmemdrop : perm.getD j 0 ∈ perm.drop bits.length := by
        have h1 : (perm.drop bits.length)[j - bits.length] = perm[j] := by
          rw [List.getElem_drop]
          congr 1
          omega
        rw [List.getD_eq_getElem perm 0 hjp, ← h1]
        exact List.getElem_mem hjd
      have hnotin : perm.getD j 0 ∉ perm.take bits.length := by
        intro hc
        exact hdisj hc hmemdrop
      rw [← hfst] at hnotin
      exact embedBits_getD_notin _ _ _ hnotin

lemma c7WitnessBitsLength :
    (eccEncode (bytesToBits (prepareData idCipher (List.replicate 16 0) []))).length = 512 := by
  have hprep : (prepareData idCipher (List.replicate 16 0) []).length = 32 := by
    unfold prepareData
    rw [List.length_append, List.length_replicate,
      aesEncryptCBC_length _ _ _ (by simp) (pad16_mod _), pad16_length]
    simp [u32be]
  rw [eccEncode_length, bytesToBits_length, hprep]

theorem c7_write_effect_witness :
    ((embedBits (List.replicate 520 7) ((List.range 520).zip
          (eccEncode (bytesToBits (prepareData idCipher (List.replicate 16 0) []))))).getD
            ((List.range 520).getD 0 0) 0) >>> 1 &&& 1 =
        (eccEncode (bytesToBits (prepareData idCipher (List.replicate 16 0) []))).getD 0 0 ∧
      (embedBits (List.replicate 520 7) ((List.range 520).zip
          (eccEncode (bytesToBits (prepareData idCipher (List.replicate 16 0) []))))).getD
            ((List.range 520).getD 512 0) 0 =
        (List.replicate 520 7).getD ((List.range 520).getD 512 0) 0 := by
  have h := c7_write_effect idCipher (List.replicate 16 0) (List.replicate 520 7) []
    (List.range 520)
    (embedBits (List.replicate 520 7) ((List.range 520).zip
      (eccEncode (bytesToBits (prepareData idCipher (List.replicate 16 0) [])))))
    (List.nodup_range 520)
    (by
      intro i hi
      simp only [List.length_replicate]
      exact List.mem_range.mp hi)
    (by
      intro v hv
      rw [List.eq_of_mem_replicate hv]
      decide)
    (by
      rw [c7WitnessBitsLength, List.length_range]
      omega)
    (by
      unfold embedFallback
      rw [if_neg (by rw [c7WitnessBitsLength, List.length_replicate]; omega)])
  exact ⟨(h.1 0 (by rw [c7WitnessBitsLength]; omega)).2.2,
    h.2 512 (by rw [c7WitnessBitsLength]) (by rw [List.length_range]; omega)⟩

/-- C1 (code bug): in the concrete scenario of the spec, a carrier with
30000 slots (100 by 100 RGB) and the payload hello satisfy the capacity
bound, and embedding succeeds; but the subsequent extraction returns none
for every cover content and every permutation, because each of the eight
byte-alignment offsets yields a candidate stream of 1875 or 1874 bytes
whose part after the 16-byte IV is not a multiple of the 16-byte AES
block, so decryption fails at every offset; the round-trip claim expects
the payload hello back. -/
theorem c1_roundtrip_code_bug (C : BlockCipher) (iv cover perm : List Nat)
    (hiv : iv.length = 16) (hcover : cover.length = 30000) (hperm : perm.length = 30000) :
    ∃ out, embedFallback C iv cover helloBytes perm = some out ∧
      extractFallback C out perm = none := by
  have hprep : (prepareData C iv helloBytes).length = 32 := by
    unfold prepareData
    rw [List.length_append, hiv,
      aesEncryptCBC_length _ _ _ hiv (pad16_mod _), pad16_length]
    simp [u32be, helloBytes]
  have hbitsL : (eccEncode (bytesToBits (prepareData C iv helloBytes))).length = 512 := by
    rw [eccEncode_length, bytesToBits_length, hprep]
  refine ⟨embedBits cover
    (perm.zip (eccEncode (bytesToBits (prepareData C iv helloBytes)))), ?_, ?_⟩
  · unfold embedFallback
    rw [if_neg (by rw [hbitsL, hcover]; omega)]
  · unfold extractFallback
    apply firstValid_none
    intro o ho
    have ho8 : o < 8 := List.mem_range.mp ho
    have hdecL : (eccDecode (perm.map fun idx =>
        ((embedBits cover
          (perm.zip (eccEncode (bytesToBits (prepareData C iv helloBytes))))).getD idx 0 >>> 1)
            &&& 1)).length = 15000 := by
      rw [eccDecode_length, List.length_map, hperm]
    have hdropL : ((eccDecode (perm.map fun idx =>
        ((embedBits cover
          (perm.zip (eccEncode (bytesToBits (prepareData C iv helloBytes))))).getD idx 0 >>> 1)
            &&& 1)).drop o).length = 15000 - o := by
      rw [List.length_drop, hdecL]
    have hbl : (bitsToBytes ((eccDecode (perm.map fun idx =>
        ((embedBits cover
          (perm.zip (eccEncode (bytesToBits (prepareData C iv helloBytes))))).getD idx 0 >>> 1)
            &&& 1)).drop o)).length = (15000 - o) / 8 := by
      rw [bitsToBytes_length _ _ le_rfl, hdropL]
    apply extractData_none_of_misaligned
    · rw [hbl]
      omega
    · rw [hbl]
      omega

theorem c1_roundtrip_code_bug_witness :
    ∃ out, embedFallback idCipher (List.replicate 16 0) (List.replicate 30000 0) helloBytes
        (List.range 30000) = some out ∧
      extractFallback idCipher out (List.range 30000) = none :=
  c1_roundtrip_code_bug idCipher (List.replicate 16 0) (List.replicate 30000 0)
    (List.range 30000) (by rw [List.length_replicate]) (by rw [List.length_replicate])
    (by rw [List.length_range])

end PhonexArt
